import Mathlib

/-!
Verification of the ImageNet data-loading / augmentation utilities
(`ResNet-Horovod/imagenet_utils.py`) and the resize benchmark script
(`ImageNet/benchmark-pil-resize.py`).

Images are shallowly embedded as lists of rows of pixels; a pixel is a
triple of channel values, which fixes the channel dimension at 3.
External primitives the code calls (cv2.resize, tensorpack's
ResizeShortestEdge, CenterCrop, Flip, BatchData, RatioCounter) are
modelled by Lean definitions that follow those libraries' documented
behaviour; random draws made through `self.rng` are modelled as explicit
oracle inputs, so theorems quantify over every possible draw.
-/

/-- A pixel: three 8-bit channel values (BGR), modelled as naturals. -/
abbrev Pix := ℕ × ℕ × ℕ

/-- An image: a list of rows, each row a list of pixels.
Shape (H, W, 3) corresponds to H rows of W pixels each. -/
abbrev Image := List (List Pix)

/-- Number of rows of an image (`img.shape[0]`). -/
def height (im : Image) : ℕ := im.length

/-- Number of columns of an image (`img.shape[1]`), read off the first row. -/
def width (im : Image) : ℕ := (im.headD []).length

/-- A well-formed (rectangular) image: every row has the common width. -/
def Rectangular (im : Image) : Prop := ∀ r ∈ im, r.length = width im

/-- Pixel lookup with a default, used by the resize model. -/
def pixAt (im : Image) (y x : ℕ) : Pix := (im.getD y []).getD x (0, 0, 0)

/-- Models the external `cv2.resize(out, (tw, th))` call: the output always
has `th` rows of `tw` pixels.  Pixel values are modelled by nearest-neighbour
index sampling; the specification claims only concern the output geometry. -/
def cv2resize (th tw : ℕ) (im : Image) : Image :=
  (List.range th).map fun y =>
    (List.range tw).map fun x =>
      pixAt im (y * height im / th) (x * width im / tw)

/-- `img[y1 : y1 + hh, x1 : x1 + ww]`: numpy slicing, which clamps at the
array bounds exactly as `List.take`/`List.drop` do. -/
def cropAt (im : Image) (y1 hh x1 ww : ℕ) : Image :=
  ((im.drop y1).take hh).map fun r => (r.drop x1).take ww

/-- Models tensorpack `imgaug.ResizeShortestEdge(size)`: rescales so the
shorter edge becomes exactly `size`; the longer edge becomes
`int(size * long / short + 0.5)`, written here as the exact natural-number
rounding `(2 * size * long + short) / (2 * short)`. -/
def resizeShortestEdge (size : ℕ) (im : Image) : Image :=
  let h := height im
  let w := width im
  if h < w then cv2resize size ((2 * size * w + h) / (2 * h)) im
  else cv2resize ((2 * size * h + w) / (2 * w)) size im

/-- Models tensorpack `imgaug.CenterCrop(size)`: crops a `size × size`
window anchored at `((h - size) / 2, (w - size) / 2)`. -/
def centerCrop (size : ℕ) (im : Image) : Image :=
  cropAt im ((height im - size) / 2) size ((width im - size) / 2) size

/-- Models tensorpack `imgaug.Flip(horiz=True)`'s flip action:
`cv2.flip(img, 1)` reverses every row. -/
def flipH (im : Image) : Image := im.map List.reverse

/-- The flip augmentor draws a coin and flips only when it comes up. -/
def applyFlip (coin : Bool) (im : Image) : Image :=
  if coin then flipH im else im

/-- The augmentor chain acts on the image of a (image, label) sample;
the label is carried through untouched. -/
def flipAugSample (coin : Bool) (s : Image × ℤ) : Image × ℤ :=
  (applyFlip coin s.1, s.2)

/-! ## Benchmark script (`ImageNet/benchmark-pil-resize.py`)

The script builds one fixed 256×256×3 uint8 array, then loops
`for k in range(1000)`, each iteration converting the array to a PIL
image and resizing it to 384×384, and finally prints the elapsed
wall-clock time once.  We record the loop's operations as a trace and
the printed output as a list of values, with the two clock readings as
oracle inputs. -/

/-- One iteration of the benchmark loop: an array-to-image conversion
followed by a resize, recorded with its source and destination geometry. -/
structure ResizeOp where
  srcH : ℕ
  srcW : ℕ
  srcC : ℕ
  dstW : ℕ
  dstH : ℕ
  deriving DecidableEq

/-- The trace of resize operations performed by the benchmark loop:
one op per iteration of `range(1000)`, each on the fixed
256×256×3 array, resized to (384, 384). -/
def benchResizeOps : List ResizeOp :=
  (List.range 1000).map fun _ =>
    { srcH := 256, srcW := 256, srcC := 3, dstW := 384, dstH := 384 }

/-- What the script writes to standard output, given the two clock
readings: the single value `time.time() - start`. -/
def benchPrinted (startT endT : ℚ) : List ℚ := [endT - startT]

/-! ## Validation-set sharding and pipeline construction
(`get_val_dataflow` in `imagenet_utils.py`)

When `num_splits` is given, the function asserts `split_index < num_splits`
and then takes the slice `files[start:end]` of the N validation files, with
`split_size = N // num_splits`, `start = split_size * split_index`, and
`end = min(split_size * (split_index + 1), N)`.  It then builds
`MultiThreadMapData(..., buffer_size=min(2000, ds.size()), strict=True)`
followed by `BatchData(ds, batch_size, remainder=True)`. -/

/-- The `[start, end)` index range of one validation shard, exactly as
`get_val_dataflow` computes it. -/
def shardRange (n numSplits splitIndex : ℕ) : ℕ × ℕ :=
  let splitSize := n / numSplits
  (splitSize * splitIndex, min (splitSize * (splitIndex + 1)) n)

/-- `x` lies in shard `splitIndex` of `n` files split `numSplits` ways. -/
def inShard (n numSplits splitIndex x : ℕ) : Prop :=
  (shardRange n numSplits splitIndex).1 ≤ x ∧ x < (shardRange n numSplits splitIndex).2

instance (n numSplits splitIndex x : ℕ) : Decidable (inShard n numSplits splitIndex x) :=
  inferInstanceAs (Decidable (_ ∧ _))

/-- The construction parameters `get_val_dataflow` fixes for its pipeline:
the shard slice, the worker count, the map stage's buffer size and
strictness, and the batching stage's size and remainder policy. -/
structure ValPipelineConfig where
  shardStart : ℕ
  shardEnd : ℕ
  parallel : ℕ
  bufSize : ℕ
  strict : Bool
  batchSize : ℕ
  remainder : Bool
  deriving DecidableEq

/-- `get_val_dataflow(datadir, batch_size, augmentors, parallel, num_splits,
split_index)` up to the point where the dataflow objects are constructed:
`n` is the number of validation files found in `datadir`, `cpuCount` is
`multiprocessing.cpu_count()`.  A failed `assert` is an `Except.error`,
raised before any dataflow stage is built.  `ds.size()` is the length of
the shard slice, and the map stage is always built with
`buffer_size = min(2000, ds.size())` and `strict=True`; batching always
keeps the remainder. -/
def getValDataflowConfig (n batchSize : ℕ) (parallelOpt : Option ℕ) (cpuCount : ℕ)
    (numSplits splitIndex : Option ℕ) : Except String ValPipelineConfig :=
  let parallel := parallelOpt.getD (min 40 cpuCount)
  match numSplits with
  | none =>
      .ok { shardStart := 0, shardEnd := n, parallel := parallel,
            bufSize := min 2000 n, strict := true,
            batchSize := batchSize, remainder := true }
  | some s =>
      match splitIndex with
      | none => .error "split index must be given with num splits"
      | some i =>
          if i < s then
            let r := shardRange n s i
            .ok { shardStart := r.1, shardEnd := r.2, parallel := parallel,
                  bufSize := min 2000 (r.2 - r.1), strict := true,
                  batchSize := batchSize, remainder := true }
          else .error "assert split index less than num splits"

/-! ## Batching (`BatchData(ds, batch_size, remainder=True)`)

Models tensorpack's `BatchData` with `remainder=True`: samples are
collected into groups of `batch_size`; when the stream ends, a nonempty
final group smaller than `batch_size` is still yielded.  A batch size of
0 never terminates in the library and is mapped to the empty output here;
all theorems assume `1 ≤ batch_size`. -/
def batchData {α : Type} : ℕ → List α → List (List α)
  | _, [] => []
  | 0, _ :: _ => []
  | b + 1, a :: l => (a :: l).take (b + 1) :: batchData (b + 1) (l.drop b)
termination_by _ l => l.length
decreasing_by
  simp only [List.length_drop, List.length_cons]
  omega

/-! ## Evaluation accumulation (`eval_on_ILSVRC12`)

`eval_on_ILSVRC12` feeds two `RatioCounter`s per batch: each counter gets
the sum of a per-sample binary wrong-indicator vector together with the
batch size (`top1.shape[0]`, taken from the top-1 vector for both feeds),
and reports each counter's ratio at the end.  `RatioCounter` (tensorpack
`utils.stats.RatioCounter`) keeps two running sums and divides them. -/

/-- Running sums of a tensorpack RatioCounter: fed counts and fed totals. -/
structure RatioCounter where
  cnt : ℕ
  tot : ℕ
  deriving DecidableEq

/-- `RatioCounter.feed(cnt, tot)`: adds to both running sums. -/
def RatioCounter.feed (rc : RatioCounter) (c t : ℕ) : RatioCounter :=
  { cnt := rc.cnt + c, tot := rc.tot + t }

/-- The reported ratio `self._cnt / self._tot`, as an exact rational. -/
def RatioCounter.ratioVal (rc : RatioCounter) : ℚ := (rc.cnt : ℚ) / (rc.tot : ℚ)

/-- One iteration of the result loop: feed the top-1 counter with the
top-1 wrong count, the top-5 counter with the top-5 wrong count, both
with batch size `top1.shape[0]`. -/
def feedStep (acc : RatioCounter × RatioCounter) (r : List Bool × List Bool) :
    RatioCounter × RatioCounter :=
  (acc.1.feed (r.1.count true) r.1.length, acc.2.feed (r.2.count true) r.1.length)

/-- The accumulation loop of `eval_on_ILSVRC12` over the per-batch
wrong-indicator vectors, returning the two reported error ratios. -/
def evalOnILSVRC12 (results : List (List Bool × List Bool)) : ℚ × ℚ :=
  let final := results.foldl feedStep ({ cnt := 0, tot := 0 }, { cnt := 0, tot := 0 })
  (final.1.ratioVal, final.2.ratioVal)

/-! ## The map function of `get_val_dataflow`

`mapf(dp)` unpacks `(fname, cls)`, decodes the image with
`cv2.imread(fname, cv2.IMREAD_COLOR)`, augments it with the augmentor
chain, and returns `(im, cls)`.  Decoding and the augmentor chain are
oracle function parameters here; the label travels untouched. -/

/-- The inner map function: decode, augment, keep the label. -/
def mapf (decode : String → Image) (augC : Image → Image) (dp : String × ℤ) : Image × ℤ :=
  (augC (decode dp.1), dp.2)

/-- The decode-augment-batch pipeline applied to the shard's samples. -/
def valPipelineBatches (decode : String → Image) (augC : Image → Image) (b : ℕ)
    (samples : List (String × ℤ)) : List (List (Image × ℤ)) :=
  batchData b (samples.map (mapf decode augC))

/-! ## GoogleNetResize (`GoogleNetResize._augment`)

The method makes up to 10 trials.  Each trial draws a target area
fraction and an aspect ratio (floats), derives rounded candidate sizes
`ww`/`hh`, swaps them with probability 1/2, and accepts the first
candidate with `hh <= h and ww <= w`, cropping at offsets drawn by
`rng.randint(0, w - ww)` / `rng.randint(0, h - hh)` (0 when the extent
matches) and cubic-resizing to the target square.  After 10 failed
trials it falls back to resize-shortest-edge + center-crop.

The float draws are modelled as an oracle stream `ℕ → Trial` giving, for
each trial index, the rounded candidate sizes, the swap coin, and the
offset draws; theorems quantify over every oracle, hence over every
possible sequence of random draws. -/

/-- The random draws of one trial: rounded candidate width/height before
the swap, the swap coin, and the raw offset draws. -/
structure Trial where
  ww : ℕ
  hh : ℕ
  swap : Bool
  ox : ℕ
  oy : ℕ
  deriving DecidableEq

/-- Candidate width after the possible swap. -/
def effW (t : Trial) : ℕ := if t.swap then t.hh else t.ww

/-- Candidate height after the possible swap. -/
def effH (t : Trial) : ℕ := if t.swap then t.ww else t.hh

/-- The acceptance test `hh <= h and ww <= w` of one trial. -/
def accepts (im : Image) (t : Trial) : Prop :=
  effH t ≤ height im ∧ effW t ≤ width im

instance (im : Image) (t : Trial) : Decidable (accepts im t) :=
  inferInstanceAs (Decidable (_ ∧ _))

/-- The crop's x offset: `0 if w == ww else rng.randint(0, w - ww)`;
the draw from `[0, w - ww)` is realised as `ox % (w - ww)`. -/
def offX (im : Image) (t : Trial) : ℕ :=
  if width im = effW t then 0 else t.ox % (width im - effW t)

/-- The crop's y offset: `0 if h == hh else rng.randint(0, h - hh)`. -/
def offY (im : Image) (t : Trial) : ℕ :=
  if height im = effH t then 0 else t.oy % (height im - effH t)

/-- What an accepted trial returns: the random crop, cubic-resized to the
target square. -/
def acceptOutcome (target : ℕ) (im : Image) (t : Trial) : Image :=
  cv2resize target target (cropAt im (offY im t) (effH t) (offX im t) (effW t))

/-- One trial of the loop body: the accepted crop-and-resize, or `none`
when the candidate does not fit. -/
def trialResult (target : ℕ) (im : Image) (t : Trial) : Option Image :=
  if accepts im t then some (acceptOutcome target im t) else none

/-- The `for _ in range(10)` loop: the first accepted trial returns. -/
def runTrials (target : ℕ) (im : Image) : List Trial → Option Image
  | [] => none
  | t :: ts =>
      match trialResult target im t with
      | some out => some out
      | none => runTrials target im ts

/-- `GoogleNetResize._augment`: 10 trials from the oracle stream, then
the resize-shortest-edge + center-crop fallback. -/
def googleNetResizeAugment (target : ℕ) (rng : ℕ → Trial) (im : Image) : Image :=
  match runTrials target im ((List.range 10).map rng) with
  | some out => out
  | none => centerCrop target (resizeShortestEdge target im)

/-- Claim C8: forcing the horizontal flip twice returns the original pixel
array exactly; a single application either flips (coin true) or leaves the
image as is, and the label of a sample is unchanged in both cases. -/
theorem flip_involutive_and_label_preserved (im : Image) :
    flipH (flipH im) = im ∧
    ∀ (coin : Bool) (s : Image × ℤ),
      (flipAugSample coin s).2 = s.2 ∧
      (flipAugSample coin s).1 = (if coin then flipH s.1 else s.1) := by
  refine ⟨?_, fun coin s => ⟨rfl, rfl⟩⟩
  simp [flipH, Function.comp]

/-- Claim C9: the benchmark performs exactly 1000 resize operations, each
converting the fixed 256×256×3 array and resizing to 384×384, and prints
exactly one value: the elapsed time between the two clock readings. -/
theorem benchmark_trace_spec :
    benchResizeOps.length = 1000 ∧
    (∀ op ∈ benchResizeOps,
        op = { srcH := 256, srcW := 256, srcC := 3, dstW := 384, dstH := 384 }) ∧
    ∀ startT endT : ℚ,
      (benchPrinted startT endT).length = 1 ∧
      benchPrinted startT endT = [endT - startT] := by
  refine ⟨?_, ?_, fun s e => ⟨rfl, rfl⟩⟩
  · rw [benchResizeOps, List.length_map, List.length_range]
  intro op hop
  simp only [benchResizeOps, List.mem_map] at hop
  obtain ⟨k, -, rfl⟩ := hop
  rfl

/-- Claim C1 counterexample: with N=100 files and num_splits=3 the code
yields shard sizes (33, 33, 33) — not (33, 33, 34) — and index 99 lies in
no shard, so the shards do not partition [0, 100) and the last shard does
not absorb the remainder. -/
theorem shard_no_remainder_counterexample :
    ((shardRange 100 3 2).2 - (shardRange 100 3 2).1 = 33) ∧
    (∀ i, i < 3 → ¬ inShard 100 3 i 99) := by
  refine ⟨by decide, ?_⟩
  decide

/-- Claim C1 (amended): every shard has size exactly N / num_splits, the
shards are contiguous and pairwise disjoint, and their union is
[0, (N / num_splits) * num_splits) — when num_splits does not divide N,
the last N mod num_splits indices belong to no shard. -/
theorem shard_partition_amended (n s : ℕ) (_hs : 1 ≤ s) :
    (∀ i, i < s → (shardRange n s i).2 - (shardRange n s i).1 = n / s) ∧
    (∀ i, i + 1 < s → (shardRange n s i).2 = (shardRange n s (i + 1)).1) ∧
    (∀ i j x, i < j → j < s → ¬(inShard n s i x ∧ inShard n s j x)) ∧
    (∀ x, (∃ i, i < s ∧ inShard n s i x) ↔ x < (n / s) * s) := by
  have hds : n / s * s ≤ n := Nat.div_mul_le_self n s
  have hmin : ∀ i, i < s → (shardRange n s i).2 = n / s * (i + 1) := by
    intro i hi
    have h1 : n / s * (i + 1) ≤ n / s * s := Nat.mul_le_mul_left _ hi
    have h2 : n / s * (i + 1) ≤ n := le_trans h1 hds
    show min (n / s * (i + 1)) n = n / s * (i + 1)
    exact min_eq_left h2
  refine ⟨?_, ?_, ?_, ?_⟩
  · intro i hi
    have h2 := hmin i hi
    have h1 : (shardRange n s i).1 = n / s * i := rfl
    rw [h2, h1, Nat.mul_succ]
    exact Nat.add_sub_cancel_left _ _
  · intro i hi
    have h2 := hmin i (by omega)
    have h1 : (shardRange n s (i + 1)).1 = n / s * (i + 1) := rfl
    rw [h2, h1]
  · rintro i j x hij hj ⟨⟨-, hi2⟩, ⟨hj1, -⟩⟩
    rw [hmin i (by omega)] at hi2
    have h3 : n / s * (i + 1) ≤ n / s * j := Nat.mul_le_mul_left _ (by omega)
    have hj2 : n / s * j ≤ x := hj1
    omega
  · intro x
    constructor
    · rintro ⟨i, hi, ⟨-, hx2⟩⟩
      rw [hmin i hi] at hx2
      have h1 : n / s * (i + 1) ≤ n / s * s := Nat.mul_le_mul_left _ hi
      omega
    · intro hx
      have hd : 0 < n / s := by
        rcases Nat.eq_zero_or_pos (n / s) with h | h
        · rw [h] at hx; omega
        · exact h
      have hdm := Nat.div_add_mod x (n / s)
      have hlt : x % (n / s) < n / s := Nat.mod_lt x hd
      have hin : x / (n / s) < s := by
        rw [Nat.div_lt_iff_lt_mul hd]
        have hcomm : s * (n / s) = n / s * s := Nat.mul_comm s (n / s)
        omega
      refine ⟨x / (n / s), hin, ?_, ?_⟩
      · show n / s * (x / (n / s)) ≤ x
        exact Nat.le.intro hdm
      · rw [hmin _ hin, Nat.mul_succ]
        calc x = n / s * (x / (n / s)) + x % (n / s) := hdm.symm
          _ < n / s * (x / (n / s)) + n / s := Nat.add_lt_add_left hlt _

/-- Witness for the amended C1 at N=100, num_splits=3. -/
theorem shard_partition_amended_witness :
    1 ≤ 3 ∧
    ((∀ i, i < 3 → (shardRange 100 3 i).2 - (shardRange 100 3 i).1 = 100 / 3) ∧
     (∀ i, i + 1 < 3 → (shardRange 100 3 i).2 = (shardRange 100 3 (i + 1)).1) ∧
     (∀ i j x, i < j → j < 3 → ¬(inShard 100 3 i x ∧ inShard 100 3 j x)) ∧
     (∀ x, (∃ i, i < 3 ∧ inShard 100 3 i x) ↔ x < 100 / 3 * 3)) :=
  ⟨by decide, shard_partition_amended 100 3 (by decide)⟩

/-- Claim C7: with num_splits given, get_val_dataflow succeeds exactly when
split_index < num_splits, and otherwise fails with an assertion error
before any dataflow stage is constructed. -/
theorem split_index_assertion (n b cpu : ℕ) (p : Option ℕ) (s i : ℕ) :
    ((∃ cfg, getValDataflowConfig n b p cpu (some s) (some i) = .ok cfg) ↔ i < s) ∧
    ((∃ e, getValDataflowConfig n b p cpu (some s) (some i) = .error e) ↔ s ≤ i) := by
  by_cases h : i < s
  · simp [getValDataflowConfig, h]
  · simp [getValDataflowConfig, h]
    omega

/-- Claim C10: whenever get_val_dataflow succeeds, the parallel map stage
is built with strict (order-preserving) mode on and a buffer capacity of
min(2000, dataset size); strictness is constant true for all arguments. -/
theorem strict_map_stage (n b cpu : ℕ) (p : Option ℕ) (ns si : Option ℕ)
    (cfg : ValPipelineConfig)
    (h : getValDataflowConfig n b p cpu ns si = .ok cfg) :
    cfg.strict = true ∧ cfg.bufSize = min 2000 (cfg.shardEnd - cfg.shardStart) := by
  cases ns with
  | none =>
      simp only [getValDataflowConfig, Except.ok.injEq] at h
      subst h
      simp
  | some s =>
      cases si with
      | none => simp [getValDataflowConfig] at h
      | some i =>
          simp only [getValDataflowConfig] at h
          split at h
          · simp only [Except.ok.injEq] at h
            subst h
            simp [shardRange]
          · simp at h

/-- Witness for C10: a concrete unsharded call with 10 files. -/
theorem strict_map_stage_witness :
    getValDataflowConfig 10 4 none 8 none none =
      Except.ok { shardStart := 0, shardEnd := 10, parallel := 8, bufSize := 10,
                  strict := true, batchSize := 4, remainder := true } ∧
    (({ shardStart := 0, shardEnd := 10, parallel := 8, bufSize := 10,
        strict := true, batchSize := 4, remainder := true } : ValPipelineConfig).strict = true ∧
     ({ shardStart := 0, shardEnd := 10, parallel := 8, bufSize := 10,
        strict := true, batchSize := 4, remainder := true } : ValPipelineConfig).bufSize =
       min 2000
         (({ shardStart := 0, shardEnd := 10, parallel := 8, bufSize := 10,
             strict := true, batchSize := 4, remainder := true } : ValPipelineConfig).shardEnd -
          ({ shardStart := 0, shardEnd := 10, parallel := 8, bufSize := 10,
             strict := true, batchSize := 4, remainder := true } : ValPipelineConfig).shardStart)) :=
  ⟨rfl, strict_map_stage 10 4 8 none none none _ rfl⟩

/-- Concatenating the batches restores the input stream exactly. -/
theorem batchData_flatten {α : Type} (b : ℕ) (l : List α) (hb : 1 ≤ b) :
    (batchData b l).flatten = l := by
  induction b, l using batchData.induct with
  | case1 => simp [batchData]
  | case2 a l => omega
  | case3 b a l ih =>
      rw [batchData]
      simp only [List.flatten_cons]
      rw [ih (by omega)]
      have h : (a :: l).drop (b + 1) = l.drop b := rfl
      rw [← h, List.take_append_drop]

/-- The number of batches is the ceiling of stream length over batch size. -/
theorem batchData_length {α : Type} (b : ℕ) (l : List α) (hb : 1 ≤ b) :
    (batchData b l).length = (l.length + b - 1) / b := by
  induction b, l using batchData.induct with
  | case1 b =>
      rw [batchData]
      simp only [List.length_nil, List.length]
      rw [Nat.div_eq_of_lt (by omega)]
  | case2 a l => omega
  | case3 b a l ih =>
      rw [batchData]
      simp only [List.length_cons, List.length_drop] at ih ⊢
      rw [ih (by omega)]
      rcases Nat.lt_or_ge l.length b with hl | hl
      · have h0 : l.length - b = 0 := by omega
        rw [h0]
        rw [Nat.div_eq_of_lt (by omega)]
        have h2 : l.length + 1 + (b + 1) - 1 = l.length + b + 1 := by omega
        rw [h2]
        have h3 : 1 * (b + 1) ≤ l.length + b + 1 := by omega
        have h4 : l.length + b + 1 < Nat.succ 1 * (b + 1) := by omega
        rw [Nat.div_eq_of_lt_le h3 h4]
      · have h2 : l.length - b + (b + 1) - 1 = l.length := by omega
        rw [h2]
        have h3 : l.length + 1 + (b + 1) - 1 = l.length + (b + 1) := by omega
        rw [h3, Nat.add_div_right _ (by omega)]

/-- Every batch except possibly the last has exactly `b` samples. -/
theorem batchData_full_sizes {α : Type} (b : ℕ) (l : List α) (hb : 1 ≤ b) :
    ∀ i, i + 1 < (batchData b l).length → ((batchData b l).getD i []).length = b := by
  induction b, l using batchData.induct with
  | case1 b =>
      intro i hi
      rw [batchData] at hi
      simp at hi
  | case2 a l => omega
  | case3 b a l ih =>
      intro i hi
      rw [batchData] at hi ⊢
      cases i with
      | zero =>
          simp only [List.getD_cons_zero]
          simp only [List.length_cons] at hi
          have hne : batchData (b + 1) (l.drop b) ≠ [] := by
            intro hemp
            rw [hemp] at hi
            simp at hi
          have hdrop : l.drop b ≠ [] := by
            intro hd
            apply hne
            rw [hd, batchData]
          have hlen : b < l.length := by
            by_contra hcon
            exact hdrop (List.drop_eq_nil_of_le (by omega))
          simp only [List.length_take, List.length_cons]
          omega
      | succ i =>
          simp only [List.getD_cons_succ]
          simp only [List.length_cons] at hi
          exact ih (by omega) i (by omega)

/-- When the batch size does not divide the stream length, the final batch
holds exactly the `l.length % b` leftover samples and is kept. -/
theorem batchData_last_remainder {α : Type} (b : ℕ) (l : List α) (hb : 1 ≤ b)
    (hmod : l.length % b ≠ 0) :
    ∃ init last, batchData b l = init ++ [last] ∧ last.length = l.length % b := by
  induction b, l using batchData.induct with
  | case1 b => simp at hmod
  | case2 a l => omega
  | case3 b a l ih =>
      rw [batchData]
      simp only [List.length_cons] at hmod ⊢
      rcases Nat.lt_or_ge l.length b with hl | hl
      · have hdrop : l.drop b = [] := List.drop_eq_nil_of_le (by omega)
        rw [hdrop]
        refine ⟨[], (a :: l).take (b + 1), by simp [batchData], ?_⟩
        have hlt : l.length + 1 < b + 1 := by omega
        rw [Nat.mod_eq_of_lt hlt]
        simp only [List.length_take, List.length_cons]
        omega
      · have hx : l.length + 1 = l.length - b + (b + 1) := by omega
        have hmod2 : (l.drop b).length % (b + 1) ≠ 0 := by
          simp only [List.length_drop]
          rw [hx, Nat.add_mod_right] at hmod
          exact hmod
        obtain ⟨init, last, heq, hlast⟩ := ih (by omega) hmod2
        refine ⟨(a :: l).take (b + 1) :: init, last, by rw [heq, List.cons_append], ?_⟩
        rw [hlast]
        simp only [List.length_drop]
        rw [hx, Nat.add_mod_right]

/-- Claim C4: for a stream of K ≥ 1 augmented samples and batch size
B ≥ 1, batching yields exactly ceil(K / B) batches; every batch except
possibly the last has exactly B samples; a nonzero remainder batch of
size K mod B is kept; and concatenating the batches reproduces the input
stream, so in particular the labels are reproduced. -/
theorem batching_spec (b : ℕ) (l : List (Image × ℤ)) (hb : 1 ≤ b) (_hk : 1 ≤ l.length) :
    (batchData b l).length = (l.length + b - 1) / b ∧
    (∀ i, i + 1 < (batchData b l).length → ((batchData b l).getD i []).length = b) ∧
    (l.length % b ≠ 0 →
      ∃ init last, batchData b l = init ++ [last] ∧ last.length = l.length % b) ∧
    (batchData b l).flatten = l ∧
    ((batchData b l).flatten).map Prod.snd = l.map Prod.snd :=
  ⟨batchData_length b l hb, batchData_full_sizes b l hb,
   fun hmod => batchData_last_remainder b l hb hmod,
   batchData_flatten b l hb, by rw [batchData_flatten b l hb]⟩

/-- Witness for C4: five one-pixel samples batched in groups of two. -/
theorem batching_spec_witness :
    (1 ≤ 2 ∧ 1 ≤ ([(([[((0:ℕ),(0:ℕ),(0:ℕ))]] : Image), (1:ℤ)), ([[(0,0,0)]], 2), ([[(0,0,0)]], 3),
                    ([[(0,0,0)]], 4), ([[(0,0,0)]], 5)] : List (Image × ℤ)).length) ∧
    ((batchData 2 [(([[((0:ℕ),(0:ℕ),(0:ℕ))]] : Image), (1:ℤ)), ([[(0,0,0)]], 2), ([[(0,0,0)]], 3),
                   ([[(0,0,0)]], 4), ([[(0,0,0)]], 5)]).length =
        (([(([[((0:ℕ),(0:ℕ),(0:ℕ))]] : Image), (1:ℤ)), ([[(0,0,0)]], 2), ([[(0,0,0)]], 3),
           ([[(0,0,0)]], 4), ([[(0,0,0)]], 5)] : List (Image × ℤ)).length + 2 - 1) / 2 ∧
     (∀ i, i + 1 < (batchData 2 [(([[((0:ℕ),(0:ℕ),(0:ℕ))]] : Image), (1:ℤ)), ([[(0,0,0)]], 2),
                                 ([[(0,0,0)]], 3), ([[(0,0,0)]], 4), ([[(0,0,0)]], 5)]).length →
        ((batchData 2 [(([[((0:ℕ),(0:ℕ),(0:ℕ))]] : Image), (1:ℤ)), ([[(0,0,0)]], 2), ([[(0,0,0)]], 3),
                       ([[(0,0,0)]], 4), ([[(0,0,0)]], 5)]).getD i []).length = 2) ∧
     (([(([[((0:ℕ),(0:ℕ),(0:ℕ))]] : Image), (1:ℤ)), ([[(0,0,0)]], 2), ([[(0,0,0)]], 3),
        ([[(0,0,0)]], 4), ([[(0,0,0)]], 5)] : List (Image × ℤ)).length % 2 ≠ 0 →
        ∃ init last, batchData 2 [(([[((0:ℕ),(0:ℕ),(0:ℕ))]] : Image), (1:ℤ)), ([[(0,0,0)]], 2),
                                  ([[(0,0,0)]], 3), ([[(0,0,0)]], 4), ([[(0,0,0)]], 5)] =
            init ++ [last] ∧
          last.length = ([(([[((0:ℕ),(0:ℕ),(0:ℕ))]] : Image), (1:ℤ)), ([[(0,0,0)]], 2),
                          ([[(0,0,0)]], 3), ([[(0,0,0)]], 4), ([[(0,0,0)]], 5)] :
                           List (Image × ℤ)).length % 2) ∧
     (batchData 2 [(([[((0:ℕ),(0:ℕ),(0:ℕ))]] : Image), (1:ℤ)), ([[(0,0,0)]], 2), ([[(0,0,0)]], 3),
                   ([[(0,0,0)]], 4), ([[(0,0,0)]], 5)]).flatten =
       [(([[((0:ℕ),(0:ℕ),(0:ℕ))]] : Image), (1:ℤ)), ([[(0,0,0)]], 2), ([[(0,0,0)]], 3),
        ([[(0,0,0)]], 4), ([[(0,0,0)]], 5)] ∧
     ((batchData 2 [(([[((0:ℕ),(0:ℕ),(0:ℕ))]] : Image), (1:ℤ)), ([[(0,0,0)]], 2), ([[(0,0,0)]], 3),
                    ([[(0,0,0)]], 4), ([[(0,0,0)]], 5)]).flatten).map Prod.snd =
       ([(([[((0:ℕ),(0:ℕ),(0:ℕ))]] : Image), (1:ℤ)), ([[(0,0,0)]], 2), ([[(0,0,0)]], 3),
         ([[(0,0,0)]], 4), ([[(0,0,0)]], 5)] : List (Image × ℤ)).map Prod.snd) :=
  ⟨⟨by decide, by decide⟩, batching_spec 2 _ (by decide) (by decide)⟩

/-- The fold keeps exact running sums of counts and batch sizes. -/
theorem foldl_feedStep (results : List (List Bool × List Bool))
    (a b : RatioCounter) :
    results.foldl feedStep (a, b) =
      ({ cnt := a.cnt + (results.map (fun r => r.1.count true)).sum,
         tot := a.tot + (results.map (fun r => r.1.length)).sum },
       { cnt := b.cnt + (results.map (fun r => r.2.count true)).sum,
         tot := b.tot + (results.map (fun r => r.1.length)).sum }) := by
  induction results generalizing a b with
  | nil => simp
  | cons r rs ih =>
      simp only [List.foldl_cons, List.map_cons, List.sum_cons]
      rw [ih]
      simp only [feedStep, RatioCounter.feed]
      simp [Nat.add_assoc]

/-- Claim C5: over any nonempty run of batches (each with equal-length
top-1/top-5 wrong-indicator vectors of size >= 1), eval_on_ILSVRC12
reports exactly (sum of wrong counts) / (sum of batch sizes) for each of
the two counters, including the degenerate all-correct (0) and all-wrong
(1) cases. -/
theorem eval_ratio_spec (results : List (List Bool × List Bool))
    (hne : results ≠ [])
    (hlen : ∀ r ∈ results, r.2.length = r.1.length)
    (ht : ∀ r ∈ results, 1 ≤ r.1.length) :
    (evalOnILSVRC12 results).1 =
      ((((results.map (fun r => r.1.count true)).sum : ℕ) : ℚ) /
        (((results.map (fun r => r.1.length)).sum : ℕ) : ℚ)) ∧
    (evalOnILSVRC12 results).2 =
      ((((results.map (fun r => r.2.count true)).sum : ℕ) : ℚ) /
        (((results.map (fun r => r.1.length)).sum : ℕ) : ℚ)) ∧
    ((∀ r ∈ results, r.1.count true = 0) → (evalOnILSVRC12 results).1 = 0) ∧
    ((∀ r ∈ results, r.1.count true = r.1.length) → (evalOnILSVRC12 results).1 = 1) ∧
    ((∀ r ∈ results, r.2.count true = 0) → (evalOnILSVRC12 results).2 = 0) ∧
    ((∀ r ∈ results, r.2.count true = r.2.length) → (evalOnILSVRC12 results).2 = 1) := by
  have hfold := foldl_feedStep results { cnt := 0, tot := 0 } { cnt := 0, tot := 0 }
  have he : evalOnILSVRC12 results =
      (((((results.map (fun r => r.1.count true)).sum : ℕ) : ℚ) /
          (((results.map (fun r => r.1.length)).sum : ℕ) : ℚ)),
       ((((results.map (fun r => r.2.count true)).sum : ℕ) : ℚ) /
          (((results.map (fun r => r.1.length)).sum : ℕ) : ℚ))) := by
    rw [evalOnILSVRC12, hfold]
    simp [RatioCounter.ratioVal]
  have hpos : 1 ≤ (results.map (fun r => r.1.length)).sum := by
    obtain ⟨r, rs, rfl⟩ := List.exists_cons_of_ne_nil hne
    have hr := ht r (List.mem_cons_self r rs)
    simp only [List.map_cons, List.sum_cons]
    omega
  have hstq : ((((results.map (fun r => r.1.length)).sum : ℕ)) : ℚ) ≠ 0 := by
    exact_mod_cast Nat.one_le_iff_ne_zero.mp hpos
  rw [he]
  refine ⟨rfl, rfl, ?_, ?_, ?_, ?_⟩
  · intro hz
    have hs : (results.map (fun r => r.1.count true)).sum = 0 := by
      apply List.sum_eq_zero
      intro x hx
      obtain ⟨r, hr, rfl⟩ := List.mem_map.mp hx
      exact hz r hr
    rw [hs]
    simp
  · intro hw
    have hs : results.map (fun r => r.1.count true) = results.map (fun r => r.1.length) :=
      List.map_congr_left hw
    rw [hs]
    exact div_self hstq
  · intro hz
    have hs : (results.map (fun r => r.2.count true)).sum = 0 := by
      apply List.sum_eq_zero
      intro x hx
      obtain ⟨r, hr, rfl⟩ := List.mem_map.mp hx
      exact hz r hr
    rw [hs]
    simp
  · intro hw
    have hs : results.map (fun r => r.2.count true) = results.map (fun r => r.1.length) := by
      apply List.map_congr_left
      intro r hr
      rw [hw r hr]
      exact hlen r hr
    rw [hs]
    exact div_self hstq

/-- Witness for C5: one batch of one sample, top-1 wrong, top-5 right. -/
theorem eval_ratio_spec_witness :
    (([([true], [false])] : List (List Bool × List Bool)) ≠ [] ∧
     (∀ r ∈ ([([true], [false])] : List (List Bool × List Bool)), r.2.length = r.1.length) ∧
     (∀ r ∈ ([([true], [false])] : List (List Bool × List Bool)), 1 ≤ r.1.length)) ∧
    ((evalOnILSVRC12 [([true], [false])]).1 =
       (((([([true], [false])] : List (List Bool × List Bool)).map
            (fun r => r.1.count true)).sum : ℕ) : ℚ) /
         (((([([true], [false])] : List (List Bool × List Bool)).map
              (fun r => r.1.length)).sum : ℕ) : ℚ) ∧
     (evalOnILSVRC12 [([true], [false])]).2 =
       (((([([true], [false])] : List (List Bool × List Bool)).map
            (fun r => r.2.count true)).sum : ℕ) : ℚ) /
         (((([([true], [false])] : List (List Bool × List Bool)).map
              (fun r => r.1.length)).sum : ℕ) : ℚ) ∧
     ((∀ r ∈ ([([true], [false])] : List (List Bool × List Bool)), r.1.count true = 0) →
        (evalOnILSVRC12 [([true], [false])]).1 = 0) ∧
     ((∀ r ∈ ([([true], [false])] : List (List Bool × List Bool)),
          r.1.count true = r.1.length) →
        (evalOnILSVRC12 [([true], [false])]).1 = 1) ∧
     ((∀ r ∈ ([([true], [false])] : List (List Bool × List Bool)), r.2.count true = 0) →
        (evalOnILSVRC12 [([true], [false])]).2 = 0) ∧
     ((∀ r ∈ ([([true], [false])] : List (List Bool × List Bool)),
          r.2.count true = r.2.length) →
        (evalOnILSVRC12 [([true], [false])]).2 = 1)) :=
  ⟨⟨by decide, by decide, by decide⟩,
   eval_ratio_spec [([true], [false])] (by decide) (by decide) (by decide)⟩

/-- Claim C6: `mapf` keeps the class label of every sample exactly, and
the labels survive the whole decode-augment-batch pipeline unchanged and
in order. -/
theorem mapf_label_preserved (decode : String → Image) (augC : Image → Image) :
    (∀ dp : String × ℤ, (mapf decode augC dp).2 = dp.2) ∧
    (∀ b : ℕ, 1 ≤ b → ∀ samples : List (String × ℤ),
      ((valPipelineBatches decode augC b samples).flatten).map Prod.snd =
        samples.map Prod.snd) := by
  refine ⟨fun dp => rfl, fun b hb samples => ?_⟩
  rw [valPipelineBatches, batchData_flatten _ _ hb, List.map_map]
  rfl

/-- Witness for C6: one sample through the pipeline with batch size 1. -/
theorem mapf_label_preserved_witness :
    1 ≤ 1 ∧
    ((valPipelineBatches (fun _ => [[(0, 0, 0)]]) (fun im => im) 1
        [("a", (7 : ℤ))]).flatten).map Prod.snd =
      ([("a", (7 : ℤ))] : List (String × ℤ)).map Prod.snd :=
  ⟨by decide,
   (mapf_label_preserved (fun _ => [[(0, 0, 0)]]) (fun im => im)).2 1 (by decide)
     [("a", (7 : ℤ))]⟩

/-- The resize model always yields the requested number of rows. -/
theorem height_cv2resize (th tw : ℕ) (im : Image) :
    height (cv2resize th tw im) = th := by
  simp [cv2resize, height]

/-- Every row of the resize model has the requested length. -/
theorem mem_cv2resize_length (th tw : ℕ) (im : Image) :
    ∀ r ∈ cv2resize th tw im, r.length = tw := by
  intro r hr
  simp only [cv2resize, List.mem_map] at hr
  obtain ⟨y, -, rfl⟩ := hr
  simp

/-- A list of rows of the common length `k`, with `k` also the row count,
has width `k`. -/
theorem width_eq_of_shape (l : Image) (k : ℕ) (hlen : height l = k)
    (hrows : ∀ r ∈ l, r.length = k) : width l = k := by
  cases l with
  | nil =>
      simp only [height, List.length_nil] at hlen
      simp [width, ← hlen]
  | cons a t => exact hrows a (List.mem_cons_self a t)

/-- Shape of a center crop applied to an image with `H ≥ size` rows, all
of length `W ≥ size`. -/
theorem centerCrop_shape (size H W : ℕ) (im2 : Image)
    (hH : height im2 = H) (hRows : ∀ r ∈ im2, r.length = W)
    (h1 : size ≤ H) (h2 : size ≤ W) :
    height (centerCrop size im2) = size ∧
    ∀ r ∈ centerCrop size im2, r.length = size := by
  constructor
  · simp only [centerCrop, cropAt, height, List.length_map, List.length_take,
      List.length_drop]
    simp only [height] at hH
    rw [hH]
    omega
  · intro r hr
    simp only [centerCrop, cropAt, List.mem_map] at hr
    obtain ⟨r0, hr0, rfl⟩ := hr
    have hr0mem : r0 ∈ im2 := List.drop_subset _ _ (List.take_subset _ _ hr0)
    have hr0len : r0.length = W := hRows r0 hr0mem
    have hwid : width im2 = W := by
      cases im2 with
      | nil => exact absurd hr0mem (List.not_mem_nil r0)
      | cons a t => exact hRows a (List.mem_cons_self a t)
    simp only [List.length_take, List.length_drop, hr0len, hwid]
    have hx : (W - size) / 2 ≤ W - size := Nat.div_le_self _ _
    omega

/-- The fallback path of GoogleNetResize always produces the target
square: resize-shortest-edge makes both extents at least `target`, and
the center crop then cuts exactly `target × target`. -/
theorem fallback_shape (target : ℕ) (im : Image)
    (hh : 1 ≤ height im) (hw : 1 ≤ width im) :
    height (centerCrop target (resizeShortestEdge target im)) = target ∧
    ∀ r ∈ centerCrop target (resizeShortestEdge target im), r.length = target := by
  obtain ⟨H, W, heq, h1, h2⟩ :
      ∃ H W, resizeShortestEdge target im = cv2resize H W im ∧
        target ≤ H ∧ target ≤ W := by
    rw [resizeShortestEdge]
    rcases Nat.lt_or_ge (height im) (width im) with hlt | hge
    · refine ⟨target, (2 * target * width im + height im) / (2 * height im),
        by rw [if_pos hlt], le_refl target, ?_⟩
      rw [Nat.le_div_iff_mul_le (by omega)]
      have hmul : 2 * target * height im ≤ 2 * target * width im :=
        Nat.mul_le_mul_left _ (by omega)
      have hring : target * (2 * height im) = 2 * target * height im := by ring
      omega
    · refine ⟨(2 * target * height im + width im) / (2 * width im), target,
        by rw [if_neg (by omega)], ?_, le_refl target⟩
      rw [Nat.le_div_iff_mul_le (by omega)]
      have hmul : 2 * target * width im ≤ 2 * target * height im :=
        Nat.mul_le_mul_left _ hge
      have hring : target * (2 * width im) = 2 * target * width im := by ring
      omega
  rw [heq]
  exact centerCrop_shape target H W (cv2resize H W im) (height_cv2resize H W im)
    (mem_cv2resize_length H W im) h1 h2

/-- Every run of the trial loop that returns did so from some trial. -/
theorem runTrials_some (target : ℕ) (im : Image) (ts : List Trial) (out : Image)
    (h : runTrials target im ts = some out) :
    ∃ t ∈ ts, trialResult target im t = some out := by
  induction ts with
  | nil => simp [runTrials] at h
  | cons t ts ih =>
      rw [runTrials] at h
      cases htr : trialResult target im t with
      | some o =>
          rw [htr] at h
          refine ⟨t, List.mem_cons_self t ts, ?_⟩
          rw [htr]
          exact h
      | none =>
          rw [htr] at h
          obtain ⟨u, hu, hres⟩ := ih h
          exact ⟨u, List.mem_cons_of_mem t hu, hres⟩

/-- An accepted trial's result is the crop-and-resize outcome. -/
theorem trialResult_some_eq (target : ℕ) (im : Image) (t : Trial) (out : Image)
    (h : trialResult target im t = some out) :
    out = acceptOutcome target im t := by
  rw [trialResult] at h
  by_cases ha : accepts im t
  · rw [if_pos ha] at h
    exact (Option.some.injEq _ _ ▸ h).symm
  · rw [if_neg ha] at h
    exact absurd h (Option.noConfusion)

/-- Claim C2: for every input with at least one row and one column and
every possible sequence of random draws, GoogleNetResize returns an
image of exactly target × target pixels (3 channels by construction),
on both the trial-acceptance path and the fallback path. -/
theorem googleNetResize_shape (target : ℕ) (rng : ℕ → Trial) (im : Image)
    (hh : 1 ≤ height im) (hw : 1 ≤ width im) :
    height (googleNetResizeAugment target rng im) = target ∧
    width (googleNetResizeAugment target rng im) = target ∧
    ∀ r ∈ googleNetResizeAugment target rng im, r.length = target := by
  have main : height (googleNetResizeAugment target rng im) = target ∧
      ∀ r ∈ googleNetResizeAugment target rng im, r.length = target := by
    cases hrun : runTrials target im ((List.range 10).map rng) with
    | none =>
        rw [googleNetResizeAugment, hrun]
        exact fallback_shape target im hh hw
    | some out =>
        rw [googleNetResizeAugment, hrun]
        obtain ⟨t, -, hres⟩ := runTrials_some target im _ out hrun
        rw [trialResult_some_eq target im t out hres, acceptOutcome]
        exact ⟨height_cv2resize _ _ _, mem_cv2resize_length _ _ _⟩
  exact ⟨main.1, width_eq_of_shape _ target main.1 main.2, main.2⟩

/-- Witness for C2: a 1×1 image with an oracle whose candidates never
fit, exercising the theorem at a concrete input. -/
theorem googleNetResize_shape_witness :
    (1 ≤ height [[((1 : ℕ), 2, 3)]] ∧ 1 ≤ width [[((1 : ℕ), 2, 3)]]) ∧
    (height (googleNetResizeAugment 224 (fun _ => ⟨256, 256, false, 0, 0⟩)
        [[((1 : ℕ), 2, 3)]]) = 224 ∧
     width (googleNetResizeAugment 224 (fun _ => ⟨256, 256, false, 0, 0⟩)
        [[((1 : ℕ), 2, 3)]]) = 224 ∧
     ∀ r ∈ googleNetResizeAugment 224 (fun _ => ⟨256, 256, false, 0, 0⟩)
        [[((1 : ℕ), 2, 3)]], r.length = 224) :=
  ⟨⟨by decide, by decide⟩,
   googleNetResize_shape 224 (fun _ => ⟨256, 256, false, 0, 0⟩) [[((1 : ℕ), 2, 3)]]
     (by decide) (by decide)⟩

/-- If every trial of a run is rejected, the loop falls through. -/
theorem runTrials_all_reject (target : ℕ) (im : Image) (ts : List Trial)
    (h : ∀ t ∈ ts, ¬ accepts im t) : runTrials target im ts = none := by
  induction ts with
  | nil => rfl
  | cons t ts ih =>
      rw [runTrials, trialResult, if_neg (h t (List.mem_cons_self t ts))]
      exact ih fun u hu => h u (List.mem_cons_of_mem t hu)

/-- The loop returns the first accepted trial's outcome. -/
theorem runTrials_prefix_accept (target : ℕ) (im : Image) (ts1 : List Trial)
    (t : Trial) (ts2 : List Trial)
    (h1 : ∀ u ∈ ts1, ¬ accepts im u) (h2 : accepts im t) :
    runTrials target im (ts1 ++ t :: ts2) = some (acceptOutcome target im t) := by
  induction ts1 with
  | nil =>
      rw [List.nil_append, runTrials, trialResult, if_pos h2]
  | cons u ts1 ih =>
      rw [List.cons_append, runTrials, trialResult,
        if_neg (h1 u (List.mem_cons_self u ts1))]
      exact ih fun v hv => h1 v (List.mem_cons_of_mem u hv)

/-- Claim C3: GoogleNetResize consults at most the first 10 oracle draws;
if none of the 10 candidates fits it returns the resize-shortest-edge +
center-crop fallback; otherwise it returns the random crop (cubic-resized
to the target square) of the first fitting candidate, where fitting means
`hh ≤ h ∧ ww ≤ w`. -/
theorem googleNetResize_trial_loop (target : ℕ) (im : Image) (rng : ℕ → Trial) :
    ((∀ i, i < 10 → ¬ accepts im (rng i)) →
      googleNetResizeAugment target rng im =
        centerCrop target (resizeShortestEdge target im)) ∧
    (∀ j, j < 10 → accepts im (rng j) → (∀ i, i < j → ¬ accepts im (rng i)) →
      googleNetResizeAugment target rng im = acceptOutcome target im (rng j)) ∧
    (∀ rng2 : ℕ → Trial, (∀ i, i < 10 → rng2 i = rng i) →
      googleNetResizeAugment target rng2 im = googleNetResizeAugment target rng im) := by
  refine ⟨?_, ?_, ?_⟩
  · intro hrej
    have hrun : runTrials target im ((List.range 10).map rng) = none := by
      apply runTrials_all_reject
      intro t ht
      simp only [List.mem_map, List.mem_range] at ht
      obtain ⟨i, hi, rfl⟩ := ht
      exact hrej i hi
    rw [googleNetResizeAugment, hrun]
  · intro j hj hacc hprev
    have hlen : j < ((List.range 10).map rng).length := by
      simp only [List.length_map, List.length_range]
      exact hj
    have hget : ((List.range 10).map rng)[j] = rng j := by
      rw [List.getElem_map]
      exact congrArg rng (List.getElem_range j _)
    have htake : ((List.range 10).map rng).take j = (List.range j).map rng := by
      rw [← List.map_take, List.take_range]
      exact congrArg (fun k => (List.range k).map rng) (min_eq_left (le_of_lt hj))
    have hdec : (List.range 10).map rng =
        ((List.range j).map rng) ++ rng j :: ((List.range 10).map rng).drop (j + 1) := by
      calc (List.range 10).map rng
          = ((List.range 10).map rng).take j ++ ((List.range 10).map rng).drop j :=
            (List.take_append_drop _ _).symm
        _ = ((List.range 10).map rng).take j ++
              (rng j :: ((List.range 10).map rng).drop (j + 1)) := by
            rw [List.drop_eq_getElem_cons hlen, hget]
        _ = ((List.range j).map rng) ++ rng j :: ((List.range 10).map rng).drop (j + 1) := by
            rw [htake]
    have hrun : runTrials target im ((List.range 10).map rng) =
        some (acceptOutcome target im (rng j)) := by
      rw [hdec]
      apply runTrials_prefix_accept
      · intro u hu
        simp only [List.mem_map, List.mem_range] at hu
        obtain ⟨i, hi, rfl⟩ := hu
        exact hprev i hi
      · exact hacc
    rw [googleNetResizeAugment, hrun]
  · intro rng2 hr
    have hm : (List.range 10).map rng2 = (List.range 10).map rng :=
      List.map_congr_left fun i hi => hr i (List.mem_range.mp hi)
    rw [googleNetResizeAugment, googleNetResizeAugment, hm]

/-- Witness for C3: a 1×1 image whose oracle candidates (3×3) never fit,
so the loop takes the fallback. -/
theorem googleNetResize_trial_loop_witness :
    (∀ i, i < 10 →
      ¬ accepts [[((5 : ℕ), 5, 5)]] ((fun _ => ⟨3, 3, false, 0, 0⟩ : ℕ → Trial) i)) ∧
    googleNetResizeAugment 2 (fun _ => ⟨3, 3, false, 0, 0⟩) [[((5 : ℕ), 5, 5)]] =
      centerCrop 2 (resizeShortestEdge 2 [[((5 : ℕ), 5, 5)]]) :=
  ⟨fun i _ => (by decide : ¬ accepts [[((5 : ℕ), 5, 5)]] ⟨3, 3, false, 0, 0⟩),
   (googleNetResize_trial_loop 2 [[((5 : ℕ), 5, 5)]] (fun _ => ⟨3, 3, false, 0, 0⟩)).1
     (fun i _ => (by decide : ¬ accepts [[((5 : ℕ), 5, 5)]] ⟨3, 3, false, 0, 0⟩))⟩

/-- Witness for C9: the first loop iteration's recorded operation. -/
theorem benchmark_trace_spec_witness :
    ({ srcH := 256, srcW := 256, srcC := 3, dstW := 384, dstH := 384 } : ResizeOp) ∈
        benchResizeOps ∧
    ({ srcH := 256, srcW := 256, srcC := 3, dstW := 384, dstH := 384 } : ResizeOp) =
      { srcH := 256, srcW := 256, srcC := 3, dstW := 384, dstH := 384 } := by
  have hmem : ({ srcH := 256, srcW := 256, srcC := 3, dstW := 384, dstH := 384 } : ResizeOp) ∈
      benchResizeOps :=
    List.mem_map.mpr ⟨0, List.mem_range.mpr (by norm_num), rfl⟩
  exact ⟨hmem, benchmark_trace_spec.2.1 _ hmem⟩
